import Mathlib

/-!
Verification of the well-coordinate algebra, range parser, platemap compiler,
plate rescaler and grouped normalizer of the `microplates` library
(`microplates/utils.py`, `microplates/data.py`, `microplates/calculate.py`).

Well names and other Python strings are embedded as `List Char`; Python's
unbounded integers are embedded as `Int` (or `Nat` where the source value is
manifestly non-negative); Python `None` is `Option.none`; an uncaught Python
exception is `Except.error` carrying the kind of exception.
-/

set_option autoImplicit false
set_option maxRecDepth 10000

namespace Microplates

/-! ## Embedded definitions -/

/-- Kinds of uncaught Python exceptions that the embedded code can raise. -/
inductive PyErr where
  | keyError : PyErr
  | indexError : PyErr
  | valueError : PyErr
  | nameError : PyErr
  | typeError : PyErr
deriving DecidableEq, Repr

/-- A Python string, embedded as its list of characters. -/
abbrev PyStr := List Char

/-- Convenience: turn a Lean string literal into the embedded string type. -/
def wl (s : String) : PyStr := s.toList

/-- Embeds utils.py `_alpha = "ABCDEFGHIJKLMNOPQRSTUVWXYZ"`. -/
def alphaChars : List Char := wl "ABCDEFGHIJKLMNOPQRSTUVWXYZ"

/-- Embeds Python `_alpha[k]`: `none` models an `IndexError`. -/
def alphaGet (k : Nat) : Option Char := alphaChars.get? k

/-- Total variant of `alphaGet` for call sites where the source index is
`i % 26` and hence always in range (the default is never read there). -/
def alphaD (k : Nat) : Char := alphaChars.getD k 'A'

/-- Embeds the utils.py dict `letters = dict(zip(_alpha, range(26)))`:
`letters[c]` is `some` of the 0-based position of an upper-case letter, and
`none` (a Python `KeyError`) for every other character. -/
def letterIdx (c : Char) : Option Nat :=
  if 65 ≤ c.toNat ∧ c.toNat ≤ 90 then some (c.toNat - 65) else none

/-- Embeds the accumulator loop shared by `letters2row` and `well2tuple`
(utils.py): starting from `acc`, each character multiplies the accumulator by
26 and adds `letters[ch] + 1`; a non-upper-case character is a `KeyError`,
modelled as `none`. -/
def lettersVal (acc : Nat) : PyStr → Option Nat
  | [] => some acc
  | c :: rest =>
    match letterIdx c with
    | some d => lettersVal (acc * 26 + d + 1) rest
    | none => none

/-- Character class `[a-zA-Z]` of the source regexes (ASCII letters, compared
by code point). -/
def isAlphaChar (c : Char) : Bool :=
  (97 ≤ c.toNat && c.toNat ≤ 122) || (65 ≤ c.toNat && c.toNat ≤ 90)

/-- Character class `\d` of the source regexes (ASCII digits). -/
def isDigitChar (c : Char) : Bool :=
  48 ≤ c.toNat && c.toNat ≤ 57

/-- Fuelled body of utils.py `row2letters`: the Python loop
`while i >= 0: r = _alpha[i % 26] + r; i = i // 26 - 1` unrolled by structural
recursion on a fuel argument (the loop runs at most `i + 1` times, since each
step strictly decreases a non-negative `i`). -/
def row2lettersAux : Nat → Nat → List Char
  | 0, _ => []
  | f + 1, i =>
    if i < 26 then [alphaD i]
    else row2lettersAux f (i / 26 - 1) ++ [alphaD (i % 26)]
  -- for i < 26 the Python loop also ends: i // 26 - 1 = -1

/-- utils.py `row2letters` restricted to non-negative input. -/
def row2lettersNat (i : Nat) : List Char := row2lettersAux (i + 1) i

/-- Embeds utils.py `row2letters(i)` on an arbitrary integer: the loop body
never runs when `i` is negative, so the result is the empty string. -/
def row2letters (i : Int) : List Char :=
  if i < 0 then [] else row2lettersNat i.toNat

/-- Decimal digit character for `d < 10`. -/
def digitChar (d : Nat) : Char := Char.ofNat (48 + d)

/-- Fuelled decimal rendering of a natural number, as Python `str` produces it
for a non-negative int (most significant digit first). -/
def natDigitsAux : Nat → Nat → List Char
  | 0, _ => []
  | f + 1, n =>
    if n < 10 then [digitChar n]
    else natDigitsAux f (n / 10) ++ [digitChar (n % 10)]

/-- Decimal digits of a natural number (`str(n)` for `n ≥ 0`). -/
def natDigits (n : Nat) : List Char := natDigitsAux (n + 1) n

/-- Embeds Python `str(k)` for an arbitrary integer. -/
def intStr (k : Int) : List Char :=
  if k < 0 then '-' :: natDigits (-k).toNat else natDigits k.toNat

/-- Embeds utils.py `tuple2well(i, j) = row2letters(i) + str(j + 1)`. -/
def tuple2well (i j : Int) : PyStr := row2letters i ++ intStr (j + 1)

/-- Embeds `cell_regex.match(cell)` for `cell_regex = ^([a-zA-Z]+)(\d+)`:
a *prefix* match (Python `re.match`) returning the two captured groups, or
`none` when the string has no such prefix.  The two character classes are
disjoint, so the greedy scan needs no backtracking. -/
def matchCell (s : PyStr) : Option (PyStr × PyStr) :=
  let ls := s.takeWhile isAlphaChar
  let rest := s.dropWhile isAlphaChar
  let ds := rest.takeWhile isDigitChar
  if ls ≠ [] ∧ ds ≠ [] then some (ls, ds) else none

/-- Value of a non-empty digit string under Python `int`. -/
def parseDigits (ds : PyStr) : Nat :=
  ds.foldl (fun acc c => acc * 10 + (c.toNat - 48)) 0

/-- Embeds utils.py `well2tuple` (alias `cell2tuple`): `re.match` the prefix
regex; on no match return Python `None`; otherwise decode the letter group
through the `letters` dict (which raises `KeyError` on a lower-case letter)
and the digit group through `int`, giving the 0-based `(row, column)` pair. -/
def well2tuple (s : PyStr) : Except PyErr (Option (Int × Int)) :=
  match matchCell s with
  | none => .ok none
  | some (ls, ds) =>
    match lettersVal 0 ls with
    | none => .error .keyError
    | some v => .ok (some ((v : Int) - 1, (parseDigits ds : Int) - 1))

/-- Embeds utils.py `is_well`: `cell_regex.fullmatch(cell) is not None`,
i.e. the whole string is letters followed by digits. -/
def is_well (s : PyStr) : Bool :=
  match matchCell s with
  | none => false
  | some (ls, ds) => s == ls ++ ds

/-- Embeds the utils.py `plate_shapes` dict (alias `plates`), as an ordered
association list: keys are well counts, values are `(rows, columns)`. -/
def plate_shapes_list : List (Nat × (Nat × Nat)) :=
  [(6, (2, 3)), (12, (3, 4)), (24, (4, 6)), (48, (6, 8)),
   (96, (8, 12)), (384, (16, 24)), (1536, (32, 48))]

/-- Embeds `plates[wells]`: `none` models a Python `KeyError`. -/
def plates (wells : Nat) : Option (Nat × Nat) :=
  plate_shapes_list.lookup wells

/-- Embeds `re.match(r"([a-zA-Z]\d+):([a-zA-Z]\d+)", rng)`: a prefix match of
one letter plus digits, a colon, one letter plus digits; trailing characters
are ignored.  Returns the two captured groups. -/
def matchRange1 (s : PyStr) : Option (PyStr × PyStr) :=
  match s with
  | [] => none
  | c1 :: rest1 =>
    if isAlphaChar c1 then
      let d1 := rest1.takeWhile isDigitChar
      match rest1.dropWhile isDigitChar with
      | ':' :: rest2 =>
        if d1 ≠ [] then
          match rest2 with
          | [] => none
          | c2 :: rest3 =>
            if isAlphaChar c2 then
              let d2 := rest3.takeWhile isDigitChar
              if d2 ≠ [] then some (c1 :: d1, c2 :: d2) else none
            else none
        else none
      | _ => none
    else none

/-- Embeds `re.match(r"([a-zA-Z]):([a-zA-Z])", rng)` (prefix match, trailing
characters ignored). -/
def matchRange2 (s : PyStr) : Option (Char × Char) :=
  match s with
  | c1 :: ':' :: c2 :: _ =>
    if isAlphaChar c1 && isAlphaChar c2 then some (c1, c2) else none
  | _ => none

/-- Embeds `re.match(r"(\d+):(\d+)", rng)` (prefix match, trailing characters
ignored). -/
def matchRange3 (s : PyStr) : Option (PyStr × PyStr) :=
  let d1 := s.takeWhile isDigitChar
  if d1 ≠ [] then
    match s.dropWhile isDigitChar with
    | ':' :: rest2 =>
      let d2 := rest2.takeWhile isDigitChar
      if d2 ≠ [] then some (d1, d2) else none
    | _ => none
  else none

/-- Python string `<` (lexicographic by code point), used by `sorted` on the
captured groups in `range2wells`. -/
def pyStrLt : PyStr → PyStr → Bool
  | [], [] => false
  | [], _ :: _ => true
  | _ :: _, [] => false
  | c :: a, d :: b =>
    if c.toNat < d.toNat then true
    else if d.toNat < c.toNat then false
    else pyStrLt a b

/-- Python `sorted` on a two-element list of strings (stable sort). -/
def sortStrPair (a b : PyStr) : PyStr × PyStr :=
  if pyStrLt b a then (b, a) else (a, b)

/-- Python tuple `<` on int pairs, used by `sorted` in `range2tuple`. -/
def tupLt (p q : Int × Int) : Bool :=
  if p.1 < q.1 then true else if q.1 < p.1 then false else p.2 < q.2

/-- Python `sorted` on a two-element list of int pairs (stable sort). -/
def sortTupPair (p q : Int × Int) : (Int × Int) × (Int × Int) :=
  if tupLt q p then (q, p) else (p, q)

/-- Embeds utils.py `range2wells` (alias `range2cells`): the three range
grammars are tried in order; `Option.none` inside `.ok` is Python's implicit
`None` return for unmatched syntax, while `.error` models an uncaught
`KeyError` (unknown plate size) or `IndexError` (`_alpha[...]` out of range,
which happens for the 1536-well plate whose row count 32 exceeds 26). -/
def range2wells (rng : PyStr) (wells : Nat) : Except PyErr (Option (PyStr × PyStr)) :=
  match matchRange1 rng with
  | some (g1, g2) => .ok (some (sortStrPair g1 g2))
  | none =>
  match matchRange2 rng with
  | some (c1, c2) =>
    let a := if c2.toNat < c1.toNat then c2 else c1
    let b := if c2.toNat < c1.toNat then c1 else c2
    match plates wells with
    | some dims => .ok (some (a :: wl "1", b :: natDigits dims.2))
    | none => .error .keyError
  | none =>
  match matchRange3 rng with
  | some (d1, d2) =>
    let n1 := parseDigits d1
    let n2 := parseDigits d2
    let g0 := min n1 n2
    let g1 := max n1 n2
    match plates wells with
    | some dims =>
      match alphaGet (dims.1 - 1) with
      | some ch => .ok (some (alphaD 0 :: natDigits g0, ch :: natDigits g1))
      | none => .error .indexError
    | none => .error .keyError
  | none => .ok none

/-- Embeds utils.py `range2tuple`: convert the pair of corner well names from
`range2wells` to coordinates and sort the two coordinate pairs (Python
`tuple(sorted([cell2tuple(cs[0]), cell2tuple(cs[1])]))`).  A `None` from
`cell2tuple` would make Python's `sorted` raise a `TypeError`. -/
def range2tuple (rng : PyStr) (wells : Nat) :
    Except PyErr (Option ((Int × Int) × (Int × Int))) :=
  match range2wells rng wells with
  | .error e => .error e
  | .ok none => .ok none
  | .ok (some (s1, s2)) =>
    match well2tuple s1 with
    | .error e => .error e
    | .ok t1 =>
      match well2tuple s2 with
      | .error e => .error e
      | .ok t2 =>
        match t1, t2 with
        | some p1, some p2 => .ok (some (sortTupPair p1 p2))
        | _, _ => .error .typeError

/-- Python `range(lo, hi)` as a list. -/
def rangeList (lo hi : Nat) : List Nat :=
  (List.range (hi - lo)).map (fun k => lo + k)

/-- The expansion list of from-well `(i, j)` built by `_map_plate` in data.py:
`[tuple2cell(x, y) for x in range(ratio[0]*i, ratio[0]*(i+1)) for y in
range(ratio[1]*j, ratio[1]*(j+1))]`. -/
def expansion (rr rc i j : Nat) : List PyStr :=
  (rangeList (rr * i) (rr * (i + 1))).flatMap (fun (x : Nat) =>
    (rangeList (rc * j) (rc * (j + 1))).map (fun (y : Nat) =>
      tuple2well (x : Int) (y : Int)))

/-- The entries of the `_map_plate` dict in data.py loop order (dict insertion
order: `i` outer, `j` inner), for from-dimensions `fd` and to-dimensions
`td`; `ratio = (td.1 // fd.1, td.2 // fd.2)` (Python floor division, with no
divisibility check). -/
def _map_plate_entries (fd td : Nat × Nat) : List (PyStr × List PyStr) :=
  (rangeList 0 fd.1).flatMap (fun (i : Nat) =>
    (rangeList 0 fd.2).map (fun (j : Nat) =>
      (tuple2well (i : Int) (j : Int), expansion (td.1 / fd.1) (td.2 / fd.2) i j)))

/-- Embeds data.py `_map_plate(from_wells, to_wells)`; an unknown plate size
is a `KeyError` from the `plates` dict. -/
def _map_plate (from_wells to_wells : Nat) : Except PyErr (List (PyStr × List PyStr)) :=
  match plates from_wells, plates to_wells with
  | some fd, some td => .ok (_map_plate_entries fd td)
  | _, _ => .error .keyError

/-- Helper used only to transcribe the `_plate_conversion_maps` dict literal:
`_map_plate` evaluated at two known plate sizes (the error case is
unreachable for the keys appearing in the dict). -/
def mapPlateD (fw tw : Nat) : List (PyStr × List PyStr) :=
  match _map_plate fw tw with
  | .ok m => m
  | .error _ => []

/-- Embeds the module-level dict `_plate_conversion_maps` of data.py
(lines 450-454) exactly as written, including the entry
`384: { 1536: _map_plate(96, 1536) }` — note the `96` — in the source. -/
def _plate_conversion_maps (fw tw : Nat) : Option (List (PyStr × List PyStr)) :=
  match fw, tw with
  | 24, 96 => some (mapPlateD 24 96)
  | 24, 384 => some (mapPlateD 24 384)
  | 24, 1536 => some (mapPlateD 24 1536)
  | 96, 384 => some (mapPlateD 96 384)
  | 96, 1536 => some (mapPlateD 96 1536)
  | 384, 1536 => some (mapPlateD 96 1536)
  | _, _ => none

/-- A Python value stored in one cell of a table. -/
inductive PyVal where
  | intV : Int → PyVal
  | strV : PyStr → PyVal
deriving DecidableEq, Repr

/-- One row of a tidy plate table: an association list from column name to
value; a column absent from the list reads as the NaN missing marker. -/
abbrev Row := List (PyStr × PyVal)

/-- Set key `k` to `v` in an association list: overwrite in place if the key
exists (pandas label assignment / dict insertion), else append at the end. -/
def setKey {α : Type} (l : List (PyStr × α)) (k : PyStr) (v : α) : List (PyStr × α) :=
  if l.any (fun e => e.1 == k) then
    l.map (fun e => if e.1 == k then (e.1, v) else e)
  else l ++ [(k, v)]

/-- Python `del r[k]` on a Series-like association list: `KeyError` when the
key is absent. -/
def delKey (r : Row) (k : PyStr) : Except PyErr Row :=
  if r.any (fun e => e.1 == k) then .ok (r.filter (fun e => !(e.1 == k))) else .error .keyError

/-- A pandas DataFrame specialized to the tidy plate tables this library
builds: ordered rows keyed by label, each holding an association list of
column values, plus the ordered list of column names. -/
structure Frame where
  rows : List (PyStr × Row)
  cols : List PyStr
deriving DecidableEq, Repr

/-- Inner loop of data.py `scale_plate`: for each destination cell of one
source row's expansion list, copy the row, optionally set `row`/`column`
from the destination cell's coordinates (`include_row_column`), optionally
delete pre-existing `row`/`column` columns, and store the copy in the
`newspec` dict under the destination cell name. -/
def scaleCells (row : Row) (incl del : Bool) :
    List (PyStr × Row) → List PyStr → Except PyErr (List (PyStr × Row))
  | newspec, [] => .ok newspec
  | newspec, cell :: rest => do
    let r1 ←
      if incl then
        match well2tuple cell with
        | .ok (some p) =>
          .ok (setKey (setKey row (wl "row") (.intV p.1)) (wl "column") (.intV p.2))
        | .ok none => .error .typeError
        | .error e => .error e
      else .ok row
    let r2 ←
      if del then do
        let a ← delKey r1 (wl "row")
        delKey a (wl "column")
      else .ok r1
    scaleCells row incl del (setKey newspec cell r2) rest

/-- Outer loop of data.py `scale_plate` over `spec.iterrows()`; looking up a
source row label absent from the conversion map is a `KeyError`. -/
def scaleRows (cmap : List (PyStr × List PyStr)) (incl del : Bool) :
    List (PyStr × Row) → List (PyStr × Row) → Except PyErr (List (PyStr × Row))
  | newspec, [] => .ok newspec
  | newspec, (name, row) :: rest => do
    match cmap.lookup name with
    | none => .error .keyError
    | some cells => do
      let ns ← scaleCells row incl del newspec cells
      scaleRows cmap incl del ns rest

/-- Embeds data.py `scale_plate(spec, from_wells, to_wells,
include_row_column=True)`.  The conversion map comes from the module-level
`_plate_conversion_maps` dict; on a missing key the source's `except` branch
calls the undefined name `_plate_conversion_map`, an uncaught `NameError`.
The result is the row list of `pd.DataFrame(newspec).transpose()`: one row
per destination cell, in `newspec` insertion order. -/
def scale_plate (spec : Frame) (from_wells to_wells : Nat) (incl : Bool) :
    Except PyErr (List (PyStr × Row)) :=
  let del := (spec.cols.contains (wl "row") || spec.cols.contains (wl "column")) && !incl
  match _plate_conversion_maps from_wells to_wells with
  | some cmap => scaleRows cmap incl del [] spec.rows
  | none => .error .nameError

/-- The `on` argument of `calc_norm`: a single column name, or a list of
names. -/
inductive OnArg where
  | one : PyStr → OnArg
  | many : List PyStr → OnArg

/-- Embeds the argument handling of calculate.py `calc_norm` (lines 102-112),
the only part of the function that touches the caller's objects: `cols =
columns` aliases the caller's list; for a list/tuple `on`, `cols` is rebound
to a fresh list (`list(set(cols) - set(on))`, modelled as an order-preserving
filter) leaving the caller's list unchanged; for a string `on` contained in
the list, `cols.remove(on)` deletes the first occurrence *in place* through
the alias.  The rest of the function operates on `df.copy().set_index(on)`
and never writes through `df` or `columns` again.  Returns (the grouping
columns used, the final contents of the caller's `columns` list). -/
def calc_norm_cols (columns : List PyStr) (onArg : OnArg) : List PyStr × List PyStr :=
  match onArg with
  | .many ss => (columns.filter (fun c => !(ss.contains c)), columns)
  | .one s =>
    if columns.contains s then (columns.erase s, columns.erase s)
    else (columns, columns)

/-- Decidable equality for the embedded results (Python `==` on the outcome
of a call, distinguishing normal return from exception). -/
instance {ε α : Type} [DecidableEq ε] [DecidableEq α] : DecidableEq (Except ε α) :=
  fun x y =>
    match x, y with
    | .ok a, .ok b =>
      if h : a = b then isTrue (by rw [h]) else isFalse (by intro hh; cases hh; exact h rfl)
    | .error a, .error b =>
      if h : a = b then isTrue (by rw [h]) else isFalse (by intro hh; cases hh; exact h rfl)
    | .ok _, .error _ => isFalse (by intro hh; cases hh)
    | .error _, .ok _ => isFalse (by intro hh; cases hh)

/-- A one-row tidy 384-well table holding well A1 (value column `v`). -/
def c1FrameA1 : Frame :=
  { rows := [(wl "A1", [(wl "v", .intV 7)])], cols := [wl "v"] }

/-- A one-row tidy 384-well table holding well I1 — a legitimate 384-well
(row 8 of 16), but not a well of the 96-well shape. -/
def c1FrameI1 : Frame :=
  { rows := [(wl "I1", [(wl "v", .intV 7)])], cols := [wl "v"] }

/-- A value appearing in a platemap rule: a non-sequence scalar, a 1-D list,
or a nested (2-D) list (`np.ndarray` values behave like the list forms). -/
inductive Value where
  | scalar : PyVal → Value
  | arr1 : List PyVal → Value
  | arr2 : List (List PyVal) → Value
deriving DecidableEq, Repr

/-- Shape of `np.array` on a nested list: `(rows, row length)` when the rows
all have equal length; `none` models the `ValueError` numpy raises on a
ragged (or empty) nested list. -/
def arrShape2 (xss : List (List PyVal)) : Option (Nat × Nat) :=
  match xss with
  | [] => none
  | r :: rest =>
    if rest.all (fun l => l.length == r.length) then some (xss.length, r.length) else none

/-- Element `xss[a][b]` of a rectangular nested list (indices are in range at
every call site, guarded by the shape test; the defaults are never read). -/
def getVal2 (xss : List (List PyVal)) (a b : Nat) : PyVal :=
  (xss.getD a []).getD b (.intV 0)

/-- `value_arr.squeeze()` of a 2-D array of shape `(r, c)` when the result is
1-D: the single row when `r = 1`, the single column when `c = 1`; `none`
when the squeeze is 0-D (`r = c = 1`) or still 2-D, in which case the source
falls through to assigning the entire value. -/
def squeeze2 (r c : Nat) (xss : List (List PyVal)) : Option (List PyVal) :=
  if r = 1 ∧ c ≠ 1 then some (xss.headD [])
  else if c = 1 ∧ r ≠ 1 then some (xss.map (fun l => l.headD (.intV 0)))
  else none

/-- Spooling of a squeezed 1-D array over a range of dimensions `dim`
(data.py lines 272-282): a column vector over a single-column range indexes
by row offset `a`, a row vector over a single-row range by column offset
`b`; otherwise the source assigns the entire list value to one cell, which
pandas rejects (`ValueError`; the data.py docstring documents this error for
the `'A1:A3,B5'` example). -/
def spool1 (dim : Int × Int) (a b : Nat) (xs : List PyVal) : Except PyErr PyVal :=
  if (xs.length : Int) = dim.1 ∧ dim.2 = 1 then .ok (xs.getD a (.intV 0))
  else if (xs.length : Int) = dim.2 ∧ dim.1 = 1 then .ok (xs.getD b (.intV 0))
  else .error .valueError

/-- The value stored at rectangle offset `(a, b)` for one variable of one
rule (data.py lines 251-286): array-shaped values of exactly the range's
shape spool element-wise; otherwise a 1-D squeeze is tried; otherwise the
entire value is assigned, which for a list value is a pandas `ValueError`. -/
def spoolValue (dim : Int × Int) (a b : Nat) : Value → Except PyErr PyVal
  | .scalar v => .ok v
  | .arr2 xss =>
    match arrShape2 xss with
    | none => .error .valueError
    | some (r, c) =>
      if (r : Int) = dim.1 ∧ (c : Int) = dim.2 then .ok (getVal2 xss a b)
      else
        match squeeze2 r c xss with
        | some xs => spool1 dim a b xs
        | none => .error .valueError
  | .arr1 xs =>
    if xs.length = 1 then .error .valueError
    else spool1 dim a b xs

/-- The value stored by the single-cell branch (`data.at[rng, key] = value`,
data.py line 293): the value as-is for a scalar; a list value is a pandas
`ValueError` (no spooling for single-well targets). -/
def atValue : Value → Except PyErr PyVal
  | .scalar v => .ok v
  | _ => .error .valueError

/-- The row-major enumeration of all well names of a plate shape, as built by
the initialization loop of `platemap_to_dataframe` (data.py lines 216-218). -/
def initCells (dims : Nat × Nat) : List PyStr :=
  (rangeList 0 dims.1).flatMap (fun (i : Nat) =>
    (rangeList 0 dims.2).map (fun (j : Nat) => tuple2well (i : Int) (j : Int)))

/-- `pd.DataFrame(index=cells)`: one row per well, no columns, every cell
missing. -/
def initFrame (dims : Nat × Nat) : Frame :=
  { rows := (initCells dims).map (fun c => (c, [])), cols := [] }

/-- `data.loc[rk, ck] = v` / `data.at[rk, ck] = v`: overwrite the cell when
the row label exists, append a new row labelled `rk` otherwise (pandas
setting-with-enlargement); the column is appended to the column list on
first use. -/
def frameSet (f : Frame) (rk ck : PyStr) (v : PyVal) : Frame :=
  { rows :=
      if f.rows.any (fun e => e.1 == rk) then
        f.rows.map (fun e => if e.1 == rk then (e.1, setKey e.2 ck v) else e)
      else f.rows ++ [(rk, [(ck, v)])],
    cols := if f.cols.contains ck then f.cols else f.cols ++ [ck] }

/-- Reading one cell of the table: `none` is the missing-value marker. -/
def cellVal (f : Frame) (rk ck : PyStr) : Option PyVal :=
  match f.rows.lookup rk with
  | some r => r.lookup ck
  | none => none

/-- Python `enumerate(range(lo, hi + 1))` over the rows (or columns) of a
parsed rectangle: pairs of (0-based offset, coordinate). -/
def rectIdx (lo hi : Int) : List (Nat × Int) :=
  (rangeList 0 (hi + 1 - lo).toNat).map (fun (a : Nat) => (a, lo + (a : Int)))

/-- The nested cell loop of the rectangle branch, row offsets outer, column
offsets inner. -/
def rectPairs (tup : (Int × Int) × (Int × Int)) : List ((Nat × Int) × (Nat × Int)) :=
  (rectIdx tup.1.1 tup.2.1).flatMap (fun ai =>
    (rectIdx tup.1.2 tup.2.2).map (fun bj => (ai, bj)))

/-- The well names written by the rectangle branch for a parsed range. -/
def rectNames (tup : (Int × Int) × (Int × Int)) : List PyStr :=
  (rectPairs tup).map (fun p => tuple2well p.1.2 p.2.2)

/-- Innermost loop: assign every variable of the rule to one cell of a
rectangle (`for key, value in values.items(): data.loc[cell, key] = ...`). -/
def applyVars (cell : PyStr) (dim : Int × Int) (a b : Nat) :
    Frame → List (PyStr × Value) → Except PyErr Frame
  | f, [] => .ok f
  | f, (k, v) :: rest =>
    match spoolValue dim a b v with
    | .error e => .error e
    | .ok pv => applyVars cell dim a b (frameSet f cell k pv) rest

/-- Middle loop: walk the rectangle's cells in row-major order. -/
def applyRectCells (dim : Int × Int) (vals : List (PyStr × Value)) :
    Frame → List ((Nat × Int) × (Nat × Int)) → Except PyErr Frame
  | f, [] => .ok f
  | f, ((a, i), (b, j)) :: rest =>
    match applyVars (tuple2well i j) dim a b f vals with
    | .error e => .error e
    | .ok f' => applyRectCells dim vals f' rest

/-- Single-cell branch: assign every variable as-is at row label `rng` (the
raw segment string, not a normalized well name). -/
def applySingle (rng : PyStr) : Frame → List (PyStr × Value) → Except PyErr Frame
  | f, [] => .ok f
  | f, (k, v) :: rest =>
    match atValue v with
    | .error e => .error e
    | .ok pv => applySingle rng (frameSet f rng k pv) rest

/-- One comma-separated segment of a rule key: try the range grammar; on a
rectangle, loop over its cells; otherwise fall back to the cell regex and
the single-cell branch; a segment matching neither is silently skipped. -/
def applySegment (f : Frame) (wells : Nat) (rng : PyStr)
    (vals : List (PyStr × Value)) : Except PyErr Frame :=
  match range2tuple rng wells with
  | .error e => .error e
  | .ok (some tup) =>
    applyRectCells (tup.2.1 - tup.1.1 + 1, tup.2.2 - tup.1.2 + 1) vals f (rectPairs tup)
  | .ok none =>
    match well2tuple rng with
    | .error e => .error e
    | .ok (some _) => applySingle rng f vals
    | .ok none => .ok f

/-- Python `rngs.split(',')`: split on every comma, keeping empty pieces. -/
def splitComma : PyStr → List PyStr
  | [] => [[]]
  | c :: rest =>
    if c = ',' then [] :: splitComma rest
    else
      match splitComma rest with
      | [] => [[c]]
      | h :: t => (c :: h) :: t

/-- Loop over the comma-separated segments of one rule key. -/
def applySegments (wells : Nat) (vals : List (PyStr × Value)) :
    Frame → List PyStr → Except PyErr Frame
  | f, [] => .ok f
  | f, rng :: rest =>
    match applySegment f wells rng vals with
    | .error e => .error e
    | .ok f' => applySegments wells vals f' rest

/-- Loop over the rules of the platemap, in declaration order. -/
def applyRules (wells : Nat) : Frame → List (PyStr × List (PyStr × Value)) →
    Except PyErr Frame
  | f, [] => .ok f
  | f, (rngs, vals) :: rest =>
    match applySegments wells vals f (splitComma rngs) with
    | .error e => .error e
    | .ok f' => applyRules wells f' rest

/-- Embeds data.py `platemap_to_dataframe(prog, wells)` (alias `prog2spec`):
initialize one row per well of the shape, then apply each rule. -/
def platemap_to_dataframe (prog : List (PyStr × List (PyStr × Value))) (wells : Nat) :
    Except PyErr Frame :=
  match plates wells with
  | some dims => applyRules wells (initFrame dims) prog
  | none => .error .keyError

/-- The table of a successful compilation (the error default is never used by
the theorems, which pin the `.ok` case separately). -/
def getOk (e : Except PyErr Frame) : Frame :=
  match e with
  | .ok f => f
  | .error _ => { rows := [], cols := [] }

/-- One segment of one rule writes to well name `w`: either the segment
parses as a rectangle whose cell loop covers `w`, or it is taken by the
single-cell branch with `w` as the raw row label. -/
def segTouches (wells : Nat) (seg w : PyStr) : Prop :=
  (∃ tup, range2tuple seg wells = .ok (some tup) ∧ w ∈ rectNames tup) ∨ seg = w

/-- Some rule of the platemap writes to well name `w`. -/
def touches (prog : List (PyStr × List (PyStr × Value))) (wells : Nat) (w : PyStr) : Prop :=
  ∃ r ∈ prog, ∃ seg ∈ splitComma r.1, segTouches wells seg w

/-- A segment stays within the plate: a rectangle's cells are all wells of
the shape, and a single-cell segment that the cell regex accepts is exactly
a well name of the shape. -/
def segWithinPlate (wells : Nat) (dims : Nat × Nat) (seg : PyStr) : Prop :=
  (∀ tup, range2tuple seg wells = .ok (some tup) → ∀ n ∈ rectNames tup, n ∈ initCells dims) ∧
  (range2tuple seg wells = .ok none → ∀ p, well2tuple seg = .ok (some p) → seg ∈ initCells dims)

/-- The platemap of claim C3: one rule spooling a 2 x 2 array over B1:C2. -/
def c3prog : List (PyStr × List (PyStr × Value)) :=
  [(wl "B1:C2", [(wl "conc", .arr2 [[.intV 0, .intV 1], [.intV 2, .intV 3]])])]

/-- The platemap of the C6 counterexample: the rule key "A1x" is not a well
name (trailing character), but the cell regex prefix-matches it. -/
def c6prog : List (PyStr × List (PyStr × Value)) :=
  [(wl "A1x", [(wl "v", .scalar (.intV 1))])]

/-- The platemap used by the C6 amended witness: one in-plate single-well
rule. -/
def c6wprog : List (PyStr × List (PyStr × Value)) :=
  [(wl "A1", [(wl "v", .scalar (.intV 1))])]

/-! ## Theorems -/

theorem row2lettersAux_eq_of_lt : ∀ i f1 f2 : Nat, i < f1 → i < f2 →
    row2lettersAux f1 i = row2lettersAux f2 i := by
  intro i
  induction i using Nat.strong_induction_on with
  | _ i ih =>
    intro f1 f2 h1 h2
    match f1, f2 with
    | g1 + 1, g2 + 1 =>
      by_cases h : i < 26
      · simp [row2lettersAux, h]
      · have hds := Nat.div_le_self i 26
        have hlt : i / 26 - 1 < i := by omega
        simp only [row2lettersAux, if_neg h]
        rw [ih (i / 26 - 1) hlt g1 g2 (by omega) (by omega)]

theorem row2lettersNat_eq (i : Nat) :
    row2lettersNat i =
      if i < 26 then [alphaD i]
      else row2lettersNat (i / 26 - 1) ++ [alphaD (i % 26)] := by
  by_cases h : i < 26
  · simp [row2lettersNat, row2lettersAux, h]
  · have hds := Nat.div_le_self i 26
    rw [if_neg h]
    calc row2lettersNat i = row2lettersAux (i + 1) i := rfl
      _ = row2lettersAux i (i / 26 - 1) ++ [alphaD (i % 26)] := by
          simp [row2lettersAux, h]
      _ = row2lettersNat (i / 26 - 1) ++ [alphaD (i % 26)] := by
          rw [row2lettersAux_eq_of_lt (i / 26 - 1) i (i / 26 - 1 + 1) (by omega) (by omega)]
          rfl

theorem row2lettersNat_ne_nil (i : Nat) : row2lettersNat i ≠ [] := by
  rw [row2lettersNat_eq]; split <;> simp

theorem alphaD_range : ∀ k, k < 26 → 65 ≤ (alphaD k).toNat ∧ (alphaD k).toNat ≤ 90 := by
  decide

theorem letterIdx_alphaD : ∀ k, k < 26 → letterIdx (alphaD k) = some k := by
  decide

theorem row2lettersNat_upper (i : Nat) :
    ∀ c ∈ row2lettersNat i, 65 ≤ c.toNat ∧ c.toNat ≤ 90 := by
  induction i using Nat.strong_induction_on with
  | _ i ih =>
    intro c hc
    rw [row2lettersNat_eq] at hc
    by_cases h : i < 26
    · rw [if_pos h] at hc
      simp only [List.mem_singleton] at hc
      exact hc ▸ alphaD_range i h
    · rw [if_neg h] at hc
      rcases List.mem_append.1 hc with h1 | h2
      · have := Nat.div_le_self i 26
        exact ih (i / 26 - 1) (by omega) c h1
      · simp only [List.mem_singleton] at h2
        exact h2 ▸ alphaD_range (i % 26) (Nat.mod_lt _ (by omega))

theorem lettersVal_append (acc : Nat) (s t : PyStr) :
    lettersVal acc (s ++ t) = (lettersVal acc s).bind (fun v => lettersVal v t) := by
  induction s generalizing acc with
  | nil => simp [lettersVal]
  | cons c rest ih =>
    cases h : letterIdx c <;> simp [lettersVal, h, ih]

theorem lettersVal_row2lettersNat (i : Nat) :
    ∀ acc, lettersVal acc (row2lettersNat i) =
      some (acc * 26 ^ (row2lettersNat i).length + i + 1) := by
  induction i using Nat.strong_induction_on with
  | _ i ih =>
    intro acc
    by_cases h : i < 26
    · rw [row2lettersNat_eq, if_pos h]
      simp [lettersVal, letterIdx_alphaD i h]
    · have h26 : 26 ≤ i := Nat.not_lt.1 h
      have hds : i / 26 ≤ i := Nat.div_le_self i 26
      have h1 : 1 ≤ i / 26 := (Nat.le_div_iff_mul_le (by norm_num)).2 (by omega)
      rw [row2lettersNat_eq, if_neg h, lettersVal_append, ih (i / 26 - 1) (by omega) acc]
      simp only [Option.some_bind, lettersVal,
        letterIdx_alphaD (i % 26) (Nat.mod_lt _ (by omega)), List.length_append,
        List.length_singleton]
      have hdm : 26 * (i / 26) + i % 26 = i := Nat.div_add_mod i 26
      congr 1
      set L := (row2lettersNat (i / 26 - 1)).length with hL
      rw [show acc * 26 ^ L + (i / 26 - 1) + 1 = acc * 26 ^ L + i / 26 from by omega, pow_succ,
        ← mul_assoc]
      set a := acc * 26 ^ L with ha
      omega

theorem lettersVal_zero (i : Nat) : lettersVal 0 (row2lettersNat i) = some (i + 1) := by
  simpa using lettersVal_row2lettersNat i 0

theorem natDigitsAux_eq_of_lt : ∀ n f1 f2 : Nat, n < f1 → n < f2 →
    natDigitsAux f1 n = natDigitsAux f2 n := by
  intro n
  induction n using Nat.strong_induction_on with
  | _ n ih =>
    intro f1 f2 h1 h2
    match f1, f2 with
    | g1 + 1, g2 + 1 =>
      by_cases h : n < 10
      · simp [natDigitsAux, h]
      · have hds := Nat.div_le_self n 10
        have hlt : n / 10 < n := Nat.div_lt_self (by omega) (by norm_num)
        simp only [natDigitsAux, if_neg h]
        rw [ih (n / 10) hlt g1 g2 (by omega) (by omega)]

theorem natDigits_eq (n : Nat) :
    natDigits n =
      if n < 10 then [digitChar n]
      else natDigits (n / 10) ++ [digitChar (n % 10)] := by
  by_cases h : n < 10
  · simp [natDigits, natDigitsAux, h]
  · have hds := Nat.div_le_self n 10
    have hlt : n / 10 < n := Nat.div_lt_self (by omega) (by norm_num)
    rw [if_neg h]
    calc natDigits n = natDigitsAux (n + 1) n := rfl
      _ = natDigitsAux n (n / 10) ++ [digitChar (n % 10)] := by
          simp [natDigitsAux, h]
      _ = natDigits (n / 10) ++ [digitChar (n % 10)] := by
          rw [natDigitsAux_eq_of_lt (n / 10) n (n / 10 + 1) (by omega) (by omega)]
          rfl

theorem natDigits_ne_nil (n : Nat) : natDigits n ≠ [] := by
  rw [natDigits_eq]; split <;> simp

theorem digitChar_spec : ∀ d, d < 10 →
    (48 ≤ (digitChar d).toNat ∧ (digitChar d).toNat ≤ 57) ∧ (digitChar d).toNat - 48 = d := by
  decide

theorem natDigits_digits (n : Nat) :
    ∀ c ∈ natDigits n, 48 ≤ c.toNat ∧ c.toNat ≤ 57 := by
  induction n using Nat.strong_induction_on with
  | _ n ih =>
    intro c hc
    rw [natDigits_eq] at hc
    by_cases h : n < 10
    · rw [if_pos h] at hc
      simp only [List.mem_singleton] at hc
      exact hc ▸ (digitChar_spec n h).1
    · rw [if_neg h] at hc
      rcases List.mem_append.1 hc with h1 | h2
      · have := Nat.div_le_self n 10
        exact ih (n / 10) (by omega) c h1
      · simp only [List.mem_singleton] at h2
        exact h2 ▸ (digitChar_spec (n % 10) (Nat.mod_lt _ (by omega))).1

theorem foldl_natDigits (n : Nat) :
    ∀ acc, (natDigits n).foldl (fun acc c => acc * 10 + (c.toNat - 48)) acc =
      acc * 10 ^ (natDigits n).length + n := by
  induction n using Nat.strong_induction_on with
  | _ n ih =>
    intro acc
    by_cases h : n < 10
    · rw [natDigits_eq, if_pos h]
      simp [List.foldl, (digitChar_spec n h).2]
    · have h10 : 10 ≤ n := Nat.not_lt.1 h
      have hds : n / 10 ≤ n := Nat.div_le_self n 10
      rw [natDigits_eq, if_neg h, List.foldl_append, ih (n / 10) (by omega) acc]
      simp only [List.foldl, (digitChar_spec (n % 10) (Nat.mod_lt _ (by omega))).2,
        List.length_append, List.length_singleton]
      have hdm : 10 * (n / 10) + n % 10 = n := Nat.div_add_mod n 10
      set L := (natDigits (n / 10)).length with hL
      rw [pow_succ]
      ring_nf
      omega

theorem parseDigits_natDigits (n : Nat) : parseDigits (natDigits n) = n := by
  simpa [parseDigits] using foldl_natDigits n 0

theorem digit_not_alpha (c : Char) (h : isDigitChar c = true) : isAlphaChar c = false := by
  simp only [isDigitChar, Bool.and_eq_true, decide_eq_true_eq] at h
  simp only [isAlphaChar, Bool.or_eq_false_iff, Bool.and_eq_false_iff,
    decide_eq_false_iff_not]
  omega

theorem upper_alpha (c : Char) (h : 65 ≤ c.toNat ∧ c.toNat ≤ 90) : isAlphaChar c = true := by
  simp only [isAlphaChar, Bool.or_eq_true, Bool.and_eq_true, decide_eq_true_eq]
  omega

theorem digit_isDigit (c : Char) (h : 48 ≤ c.toNat ∧ c.toNat ≤ 57) : isDigitChar c = true := by
  simp only [isDigitChar, Bool.and_eq_true, decide_eq_true_eq]
  omega

theorem takeWhile_append_of_all (p : Char → Bool) (l1 l2 : List Char)
    (h : ∀ c ∈ l1, p c = true) :
    (l1 ++ l2).takeWhile p = l1 ++ l2.takeWhile p := by
  induction l1 with
  | nil => simp
  | cons c t ih =>
    have hc := h c (List.mem_cons_self c t)
    have iht := ih (fun a ha => h a (List.mem_cons_of_mem c ha))
    simp [List.takeWhile_cons, hc, iht]

theorem dropWhile_append_of_all (p : Char → Bool) (l1 l2 : List Char)
    (h : ∀ c ∈ l1, p c = true) :
    (l1 ++ l2).dropWhile p = l2.dropWhile p := by
  induction l1 with
  | nil => simp
  | cons c t ih =>
    have hc := h c (List.mem_cons_self c t)
    have iht := ih (fun a ha => h a (List.mem_cons_of_mem c ha))
    simp [List.dropWhile_cons, hc, iht]

theorem matchCell_split (ls ds rest : PyStr)
    (hls : ls ≠ []) (hds : ds ≠ [])
    (h1 : ∀ c ∈ ls, isAlphaChar c = true)
    (h2 : ∀ c ∈ ds, isDigitChar c = true)
    (h3 : ∀ c t, rest = c :: t → isDigitChar c = false) :
    matchCell (ls ++ ds ++ rest) = some (ls, ds) := by
  have htake : (ls ++ ds ++ rest).takeWhile isAlphaChar = ls := by
    rw [List.append_assoc, takeWhile_append_of_all _ _ _ h1]
    cases ds with
    | nil => exact absurd rfl hds
    | cons d ds' =>
      have hda : isAlphaChar d = false := digit_not_alpha d (h2 d (List.mem_cons_self d ds'))
      simp [List.takeWhile_cons, hda]
  have hdrop : (ls ++ ds ++ rest).dropWhile isAlphaChar = ds ++ rest := by
    rw [List.append_assoc, dropWhile_append_of_all _ _ _ h1]
    cases ds with
    | nil => exact absurd rfl hds
    | cons d ds' =>
      have hda : isAlphaChar d = false := digit_not_alpha d (h2 d (List.mem_cons_self d ds'))
      simp [List.dropWhile_cons, hda]
  have hdig : (ds ++ rest).takeWhile isDigitChar = ds := by
    rw [takeWhile_append_of_all _ _ _ h2]
    cases rest with
    | nil => simp
    | cons c t => simp [List.takeWhile_cons, h3 c t rfl]
  simp only [matchCell, htake, hdrop, hdig]
  rw [if_pos ⟨hls, hds⟩]

theorem tuple2well_natCast (x y : Nat) :
    tuple2well (x : Int) (y : Int) = row2lettersNat x ++ natDigits (y + 1) := by
  have hx : ¬ ((x : Int) < 0) := by omega
  have hy : ¬ ((y : Int) + 1 < 0) := by omega
  simp only [tuple2well, row2letters, intStr]
  rw [if_neg hx, if_neg hy, show ((x : Int)).toNat = x from by omega,
    show ((y : Int) + 1).toNat = y + 1 from by omega]

theorem well2tuple_tuple2well (x y : Nat) :
    well2tuple (tuple2well (x : Int) (y : Int)) = .ok (some ((x : Int), (y : Int))) := by
  rw [tuple2well_natCast]
  have hm : matchCell (row2lettersNat x ++ natDigits (y + 1)) = some (row2lettersNat x, natDigits (y + 1)) := by
    have := matchCell_split (row2lettersNat x) (natDigits (y + 1)) []
      (row2lettersNat_ne_nil x) (natDigits_ne_nil (y + 1))
      (fun c hc => upper_alpha c (row2lettersNat_upper x c hc))
      (fun c hc => digit_isDigit c (natDigits_digits (y + 1) c hc))
      (fun c t h => by cases h)
    simpa using this
  simp only [well2tuple, hm, lettersVal_zero, parseDigits_natDigits]
  rw [show ((x + 1 : Nat) : Int) - 1 = (x : Int) from by push_cast; ring,
    show ((y + 1 : Nat) : Int) - 1 = (y : Int) from by push_cast; ring]

theorem lettersVal_isSome (acc : Nat) (ls : PyStr)
    (h : ∀ c ∈ ls, 65 ≤ c.toNat ∧ c.toNat ≤ 90) : ∃ v, lettersVal acc ls = some v := by
  induction ls generalizing acc with
  | nil => exact ⟨acc, rfl⟩
  | cons c t ih =>
    have hc := h c (List.mem_cons_self c t)
    simp only [lettersVal, letterIdx, if_pos hc]
    exact ih _ (fun a ha => h a (List.mem_cons_of_mem c ha))

theorem lettersVal_none (acc : Nat) (ls : PyStr)
    (h : ∃ c ∈ ls, ¬(65 ≤ c.toNat ∧ c.toNat ≤ 90)) : lettersVal acc ls = none := by
  induction ls generalizing acc with
  | nil => obtain ⟨c, hc, _⟩ := h; cases hc
  | cons c t ih =>
    by_cases hc : 65 ≤ c.toNat ∧ c.toNat ≤ 90
    · simp only [lettersVal, letterIdx, if_pos hc]
      apply ih
      obtain ⟨a, ha, hna⟩ := h
      rcases List.mem_cons.1 ha with rfl | hat
      · exact absurd hc hna
      · exact ⟨a, hat, hna⟩
    · simp only [lettersVal, letterIdx, if_neg hc]

/-- C1 (code bug): data.py line 453 builds `_plate_conversion_maps[384][1536]`
from `_map_plate(96, 1536)`, so `scale_plate(table, 384, 1536)` uses the
96-well conversion map: its entries are keyed by the 96-well shape (8, 12),
well A1 is replicated onto the 16 wells of a 4 x 4 block (rows 0-3, columns
0-3) instead of the claimed 2 x 2 block of 4 wells, and a 384-well row such
as I1 raises an uncaught KeyError instead of mapping to its rectangle. -/
theorem c1_scale_384_1536_bug :
    _plate_conversion_maps 384 1536 = some (_map_plate_entries (8, 12) (32, 48)) ∧
    Except.map (fun l => List.map Prod.fst l) (scale_plate c1FrameA1 384 1536 true) =
      .ok (expansion 4 4 0 0) ∧
    expansion 4 4 0 0 =
      [wl "A1", wl "A2", wl "A3", wl "A4", wl "B1", wl "B2", wl "B3", wl "B4",
       wl "C1", wl "C2", wl "C3", wl "C4", wl "D1", wl "D2", wl "D3", wl "D4"] ∧
    Except.map (fun l => List.length l) (scale_plate c1FrameA1 384 1536 true) = .ok 16 ∧
    scale_plate c1FrameI1 384 1536 true = .error .keyError := by
  decide

/-- C2: for all coordinates with row in [0, 700) and column in [0, 50),
decoding the encoded well name returns the original coordinates:
`well2tuple (tuple2well r c) = (r, c)` (the encoder writes bijective base-26
letters and a 1-based decimal column, and the decoder inverts both). -/
theorem c2_round_trip (r c : Int) (h1 : 0 ≤ r) (h2 : r < 700) (h3 : 0 ≤ c) (h4 : c < 50) :
    well2tuple (tuple2well r c) = .ok (some (r, c)) := by
  obtain ⟨x, rfl⟩ : ∃ x : Nat, r = (x : Int) := ⟨r.toNat, by omega⟩
  obtain ⟨y, rfl⟩ : ∃ y : Nat, c = (y : Int) := ⟨c.toNat, by omega⟩
  exact well2tuple_tuple2well x y

/-- Witness for C2 at the concrete coordinate (27, 9), i.e. well AB10. -/
theorem c2_round_trip_witness : well2tuple (tuple2well 27 9) = .ok (some (27, 9)) :=
  c2_round_trip 27 9 (by decide) (by decide) (by decide) (by decide)

/-- C4 counterexample: the parser sorts the two corner coordinates
lexicographically (`tuple(sorted(...))`), which does not renormalize
anti-diagonal corners: "A6:B2" parses to ((0,5),(1,1)) — the first
coordinate does not carry the minimum column — while "A2:B6" parses to
((0,1),(1,5)), so the two spellings do not denote the same rectangle. -/
theorem c4_counterexample :
    range2tuple (wl "A6:B2") 96 = .ok (some ((0, 5), (1, 1))) ∧
    range2tuple (wl "A2:B6") 96 = .ok (some ((0, 1), (1, 5))) ∧
    range2tuple (wl "A6:B2") 96 ≠ range2tuple (wl "A2:B6") 96 := by
  decide

theorem takeWhile_of_all (p : Char → Bool) (l : List Char) (h : ∀ c ∈ l, p c = true) :
    l.takeWhile p = l := by
  have := takeWhile_append_of_all p l [] h
  simpa using this

theorem tupLt_asymm (p q : Int × Int) (h : tupLt p q = true) : tupLt q p = false := by
  obtain ⟨a, b⟩ := p
  obtain ⟨c, d⟩ := q
  simp only [tupLt] at h ⊢
  by_cases hac : a < c <;> by_cases hca : c < a <;>
    simp [hac, hca] at h ⊢ <;> omega

theorem tupLt_total (p q : Int × Int) (h1 : tupLt p q = false) (h2 : tupLt q p = false) :
    p = q := by
  obtain ⟨a, b⟩ := p
  obtain ⟨c, d⟩ := q
  simp only [tupLt] at h1 h2
  by_cases hac : a < c
  · simp [hac] at h1
  · by_cases hca : c < a
    · simp [hac, hca] at h2
    · simp only [if_neg hac, if_neg hca, decide_eq_false_iff_not] at h1 h2
      rw [Prod.mk.injEq]
      exact ⟨by omega, by omega⟩

theorem sortTupPair_comm (p q : Int × Int) : sortTupPair p q = sortTupPair q p := by
  simp only [sortTupPair]
  by_cases h1 : tupLt q p
  · rw [if_pos h1, if_neg (by simp [tupLt_asymm q p h1])]
  · by_cases h2 : tupLt p q
    · rw [if_neg h1, if_pos h2]
    · rw [if_neg h1, if_neg h2,
        tupLt_total p q (Bool.of_not_eq_true h2) (Bool.of_not_eq_true h1)]

/-- Running the first range regex on an encoded pair of single-letter-row
corner well names: the prefix match captures the two well names. -/
theorem matchRange1_encode (r1 c1 r2 c2 : Nat) (h1 : r1 < 26) (h2 : r2 < 26) :
    matchRange1 (tuple2well (r1 : Int) (c1 : Int) ++ ':' :: tuple2well (r2 : Int) (c2 : Int)) =
      some (tuple2well (r1 : Int) (c1 : Int), tuple2well (r2 : Int) (c2 : Int)) := by
  have e1 : tuple2well (r1 : Int) (c1 : Int) = alphaD r1 :: natDigits (c1 + 1) := by
    rw [tuple2well_natCast, row2lettersNat_eq, if_pos h1]
    rfl
  have e2 : tuple2well (r2 : Int) (c2 : Int) = alphaD r2 :: natDigits (c2 + 1) := by
    rw [tuple2well_natCast, row2lettersNat_eq, if_pos h2]
    rfl
  have ha1 : isAlphaChar (alphaD r1) = true := upper_alpha _ (alphaD_range r1 h1)
  have ha2 : isAlphaChar (alphaD r2) = true := upper_alpha _ (alphaD_range r2 h2)
  have hdig1 : ∀ c ∈ natDigits (c1 + 1), isDigitChar c = true :=
    fun c hc => digit_isDigit c (natDigits_digits _ c hc)
  have hdig2 : ∀ c ∈ natDigits (c2 + 1), isDigitChar c = true :=
    fun c hc => digit_isDigit c (natDigits_digits _ c hc)
  have ht1 : (natDigits (c1 + 1) ++ ':' :: (alphaD r2 :: natDigits (c2 + 1))).takeWhile
      isDigitChar = natDigits (c1 + 1) := by
    rw [takeWhile_append_of_all _ _ _ hdig1]
    simp [List.takeWhile_cons, (by decide : isDigitChar ':' = false)]
  have hd1 : (natDigits (c1 + 1) ++ ':' :: (alphaD r2 :: natDigits (c2 + 1))).dropWhile
      isDigitChar = ':' :: (alphaD r2 :: natDigits (c2 + 1)) := by
    rw [dropWhile_append_of_all _ _ _ hdig1]
    simp [List.dropWhile_cons, (by decide : isDigitChar ':' = false)]
  have ht2 : (natDigits (c2 + 1)).takeWhile isDigitChar = natDigits (c2 + 1) :=
    takeWhile_of_all _ _ hdig2
  rw [e1, e2]
  simp only [List.cons_append]
  simp only [matchRange1, ha1, ha2, ht1, hd1, ht2, if_true]
  rw [if_pos (natDigits_ne_nil (c1 + 1)), if_pos (natDigits_ne_nil (c2 + 1))]

/-- C4 amended: the parser returns the two corner coordinates sorted
lexicographically as int pairs (Python `tuple(sorted(...))`), for any two
corner well names with single-letter rows, regardless of the order they are
written in; and letter ranges sort their letters, so parsing "C:B" equals
parsing "B:C".  (Lexicographic sorting coincides with top-left/bottom-right
normalization exactly when the two written corners are the top-left and
bottom-right ones; see the counterexample for anti-diagonal corners.) -/
theorem c4_amended (r1 c1 r2 c2 : Nat) (h1 : r1 < 26) (h2 : r2 < 26) :
    range2tuple (tuple2well (r1 : Int) (c1 : Int) ++ ':' :: tuple2well (r2 : Int) (c2 : Int)) 96 =
      .ok (some (sortTupPair ((r1 : Int), (c1 : Int)) ((r2 : Int), (c2 : Int)))) ∧
    range2tuple (wl "C:B") 96 = range2tuple (wl "B:C") 96 := by
  constructor
  · have hm := matchRange1_encode r1 c1 r2 c2 h1 h2
    have hw : range2wells
        (tuple2well (r1 : Int) (c1 : Int) ++ ':' :: tuple2well (r2 : Int) (c2 : Int)) 96 =
        .ok (some (sortStrPair (tuple2well (r1 : Int) (c1 : Int))
          (tuple2well (r2 : Int) (c2 : Int)))) := by
      simp only [range2wells, hm]
    by_cases hss : pyStrLt (tuple2well (r2 : Int) (c2 : Int)) (tuple2well (r1 : Int) (c1 : Int))
    · simp only [range2tuple, hw, sortStrPair, if_pos hss, well2tuple_tuple2well]
      rw [sortTupPair_comm]
    · simp only [range2tuple, hw, sortStrPair, if_neg hss, well2tuple_tuple2well]
  · decide

/-- Witness for C4 amended at the corners A6 and B2 (anti-diagonal order):
the parse yields the lexicographically sorted, non-renormalized pair. -/
theorem c4_amended_witness :
    range2tuple (tuple2well ((0 : Nat) : Int) ((5 : Nat) : Int) ++
      ':' :: tuple2well ((1 : Nat) : Int) ((1 : Nat) : Int)) 96 =
      .ok (some ((0, 5), (1, 1))) :=
  ((c4_amended 0 5 1 1 (by decide) (by decide)).1).trans (by decide)

/-- C7 counterexample: "A1x" does not fully match the well-name grammar, yet
`well2tuple` (which uses `re.match`, a prefix match) returns the coordinate
(0, 0) instead of failing; `is_well` (which uses `fullmatch`) rejects it. -/
theorem c7_counterexample :
    well2tuple (wl "A1x") = .ok (some (0, 0)) ∧ is_well (wl "A1x") = false := by
  decide

/-- C7 amended: `well2tuple` is driven by a *prefix* match of
`([a-zA-Z]+)(\d+)`: with no such prefix it returns Python `None` (no
`InvalidWellName` error exists); with a prefix whose letters are all upper
case it returns the decoded coordinate of the prefix, ignoring any trailing
characters; a non-upper-case letter in the matched prefix raises an uncaught
`KeyError` (the `letters` dict has only upper-case keys), so decoding is not
case-insensitive. -/
theorem c7_amended (s : PyStr) :
    (matchCell s = none → well2tuple s = .ok none) ∧
    (∀ ls ds, matchCell s = some (ls, ds) →
      (∀ c ∈ ls, 65 ≤ c.toNat ∧ c.toNat ≤ 90) →
      ∃ v, lettersVal 0 ls = some v ∧
        well2tuple s = .ok (some ((v : Int) - 1, (parseDigits ds : Int) - 1))) ∧
    (∀ ls ds, matchCell s = some (ls, ds) →
      (∃ c ∈ ls, ¬(65 ≤ c.toNat ∧ c.toNat ≤ 90)) →
      well2tuple s = .error .keyError) := by
  refine ⟨?_, ?_, ?_⟩
  · intro h
    simp [well2tuple, h]
  · intro ls ds hm hup
    obtain ⟨v, hv⟩ := lettersVal_isSome 0 ls hup
    exact ⟨v, hv, by simp [well2tuple, hm, hv]⟩
  · intro ls ds hm hbad
    have hnone : lettersVal 0 ls = none := lettersVal_none 0 ls hbad
    simp [well2tuple, hm, hnone]

/-- Witness for C7 amended: "-1" has no letter prefix and decodes to `None`;
"a1" matches the prefix grammar with a lower-case letter and raises
`KeyError`. -/
theorem c7_amended_witness :
    well2tuple (wl "-1") = .ok none ∧ well2tuple (wl "a1") = .error .keyError :=
  ⟨(c7_amended (wl "-1")).1 (by decide),
   (c7_amended (wl "a1")).2.2 (wl "a") (wl "1") (by decide) ⟨'a', by decide, by decide⟩⟩

/-- C8 (code bug): on the 1536-well shape (32 rows) a `digits:digits` range
makes `range2wells` index the 26-letter alphabet at position 32 - 1 = 31,
an uncaught `IndexError`, instead of returning the full column span the
docstring promises (the last row "AF" needs two letters, which the
single-character `_alpha[...]` indexing cannot produce). -/
theorem c8_range_1536_crash :
    plates 1536 = some (32, 48) ∧
    alphaGet (32 - 1) = none ∧
    range2wells (wl "1:2") 1536 = .error .indexError ∧
    range2tuple (wl "1:2") 1536 = .error .indexError ∧
    range2wells (wl "1:2") 384 = .ok (some (wl "A1", wl "P2")) := by
  decide

/-- C9 counterexample: `calc_norm` aliases the caller's `columns` list and,
when `on` is a string contained in it, calls `cols.remove(on)` — mutating
the caller's list in place.  After the call with columns `["time", "conc"]`
and index column "conc", the caller's list no longer contains "conc". -/
theorem c9_counterexample :
    (wl "conc") ∈ [wl "time", wl "conc"] ∧
    (wl "conc") ∉ (calc_norm_cols [wl "time", wl "conc"] (.one (wl "conc"))).2 ∧
    (calc_norm_cols [wl "time", wl "conc"] (.one (wl "conc"))).2 ≠ [wl "time", wl "conc"] := by
  decide

/-- C9 amended: when `on` is a string that is a member of the `columns`
list, the call removes the first occurrence of that name from the caller's
list in place (the list shrinks by one element); when `on` is a list/tuple,
the grouping columns are rebound to a fresh list and the caller's list is
left unchanged.  The input table itself is never mutated (the function
works on `df.copy()`). -/
theorem c9_amended (columns : List PyStr) (s : PyStr) :
    (s ∈ columns →
      (calc_norm_cols columns (.one s)).2 = columns.erase s ∧
      ((calc_norm_cols columns (.one s)).2).length + 1 = columns.length) ∧
    (∀ ss, (calc_norm_cols columns (.many ss)).2 = columns) := by
  constructor
  · intro hs
    have h2 : (calc_norm_cols columns (.one s)).2 = columns.erase s := by
      simp [calc_norm_cols, hs]
    refine ⟨h2, ?_⟩
    rw [h2, List.length_erase_of_mem hs]
    have : columns ≠ [] := List.ne_nil_of_mem hs
    have : 0 < columns.length := List.length_pos.2 this
    omega
  · intro ss
    simp [calc_norm_cols]

/-- Witness for C9 amended at the concrete call of the counterexample. -/
theorem c9_amended_witness :
    (calc_norm_cols [wl "time", wl "conc"] (.one (wl "conc"))).2 = [wl "time"] := by
  have h := (c9_amended [wl "time", wl "conc"] (wl "conc")).1 (by decide)
  rw [h.1]
  decide

/-- C10: for a negative row index the `row2letters` loop body never runs, so
`tuple2well` returns just the 1-based column digits; such a string is not a
valid well name and `well2tuple` returns Python `None` on it (it cannot be
decoded), rather than any error being raised. -/
theorem c10_negative_row (i j : Int) (hi : i < 0) (hj : 0 ≤ j) :
    tuple2well i j = natDigits (j.toNat + 1) ∧
    is_well (tuple2well i j) = false ∧
    well2tuple (tuple2well i j) = .ok none := by
  have ht : tuple2well i j = natDigits (j.toNat + 1) := by
    simp only [tuple2well, row2letters, intStr]
    rw [if_pos hi, if_neg (by omega : ¬ (j + 1 < 0))]
    simp only [List.nil_append]
    rw [show (j + 1).toNat = j.toNat + 1 from by omega]
  have hmatch : matchCell (natDigits (j.toNat + 1)) = none := by
    cases hnd : natDigits (j.toNat + 1) with
    | nil => exact absurd hnd (natDigits_ne_nil _)
    | cons d t =>
      have hd : isDigitChar d = true :=
        digit_isDigit d (natDigits_digits _ d (by rw [hnd]; exact List.mem_cons_self d t))
      have hda : isAlphaChar d = false := digit_not_alpha d hd
      simp [matchCell, List.takeWhile_cons, hda]
  refine ⟨ht, ?_, ?_⟩
  · rw [ht]
    simp [is_well, hmatch]
  · rw [ht]
    simp [well2tuple, hmatch]

/-- Witness for C10 at (-1, 0): the result is the string "1". -/
theorem c10_negative_row_witness :
    tuple2well (-1) 0 = wl "1" ∧ is_well (tuple2well (-1) 0) = false ∧
    well2tuple (tuple2well (-1) 0) = .ok none :=
  ⟨((c10_negative_row (-1) 0 (by decide) (by decide)).1).trans (by decide),
   (c10_negative_row (-1) 0 (by decide) (by decide)).2.1,
   (c10_negative_row (-1) 0 (by decide) (by decide)).2.2⟩

theorem rangeList_zero (n : Nat) : rangeList 0 n = List.range n := by
  simp [rangeList]

theorem mem_rangeList (lo hi k : Nat) : k ∈ rangeList lo hi ↔ lo ≤ k ∧ k < hi := by
  simp only [rangeList, List.mem_map, List.mem_range]
  constructor
  · rintro ⟨a, ha, rfl⟩
    omega
  · intro h
    exact ⟨k - lo, by omega, by omega⟩

theorem countP_flatMap {α β : Type} (p : β → Bool) (f : α → List β) (l : List α) :
    (l.flatMap f).countP p = (l.map (fun a => (f a).countP p)).sum := by
  induction l with
  | nil => simp
  | cons a t ih => simp [List.countP_append, ih]

theorem countP_range_zero (p : Nat → Bool) (n : Nat) (hp : ∀ i < n, p i = false) :
    (List.range n).countP p = 0 := by
  induction n with
  | zero => simp
  | succ n ih =>
    rw [List.range_succ, List.countP_append, ih (fun i hi => hp i (by omega))]
    simp [List.countP_cons, hp n (by omega)]

theorem countP_range_one (p : Nat → Bool) (n k : Nat) (hk : k < n)
    (hp : ∀ i < n, (p i = true ↔ i = k)) : (List.range n).countP p = 1 := by
  induction n with
  | zero => omega
  | succ n ih =>
    rw [List.range_succ, List.countP_append]
    by_cases hkn : k = n
    · rw [countP_range_zero p n (fun i hi => by
        cases hb : p i with
        | false => rfl
        | true => exact absurd ((hp i (by omega)).1 hb) (by omega))]
      have hpn : p n = true := (hp n (by omega)).2 hkn.symm
      simp [List.countP_cons, hpn]
    · have hpn : p n = false := by
        cases hb : p n with
        | false => rfl
        | true => exact absurd ((hp n (by omega)).1 hb) (by omega)
      rw [ih (by omega) (fun i hi => hp i (by omega))]
      simp [List.countP_cons, hpn]

theorem sum_map_range_zero (h : Nat → Nat) (n : Nat) (h0 : ∀ i < n, h i = 0) :
    ((List.range n).map h).sum = 0 := by
  induction n with
  | zero => simp
  | succ n ih =>
    rw [List.range_succ, List.map_append, List.sum_append,
      ih (fun i hi => h0 i (by omega))]
    simp [h0 n (by omega)]

theorem sum_map_range_one (h : Nat → Nat) (n k : Nat) (hk : k < n) (h1 : h k = 1)
    (h0 : ∀ i < n, i ≠ k → h i = 0) : ((List.range n).map h).sum = 1 := by
  induction n with
  | zero => omega
  | succ n ih =>
    rw [List.range_succ, List.map_append, List.sum_append]
    by_cases hkn : k = n
    · subst hkn
      rw [sum_map_range_zero h k (fun i hi => h0 i (by omega) (by omega))]
      simp [h1]
    · rw [ih (by omega) (fun i hi hik => h0 i (by omega) hik)]
      simp [h0 n (by omega) (by omega)]

theorem tuple2well_inj (a b x y : Nat)
    (h : tuple2well (a : Int) (b : Int) = tuple2well (x : Int) (y : Int)) :
    a = x ∧ b = y := by
  have h1 := well2tuple_tuple2well a b
  rw [h, well2tuple_tuple2well] at h1
  simp only [Except.ok.injEq, Option.some.injEq, Prod.mk.injEq] at h1
  exact ⟨by exact_mod_cast h1.1.symm, by exact_mod_cast h1.2.symm⟩

theorem mem_expansion_iff (rr rc i j x y : Nat) :
    tuple2well (x : Int) (y : Int) ∈ expansion rr rc i j ↔
      (rr * i ≤ x ∧ x < rr * (i + 1) ∧ rc * j ≤ y ∧ y < rc * (j + 1)) := by
  simp only [expansion, List.mem_flatMap, List.mem_map]
  constructor
  · rintro ⟨a, ha, b, hb, heq⟩
    obtain ⟨rfl, rfl⟩ := tuple2well_inj a b x y heq
    rw [mem_rangeList] at ha hb
    omega
  · intro hcond
    exact ⟨x, (mem_rangeList _ _ _).2 ⟨hcond.1, hcond.2.1⟩,
      y, (mem_rangeList _ _ _).2 ⟨hcond.2.2.1, hcond.2.2.2⟩, rfl⟩

theorem div_interval (k x i : Nat) (hk : 0 < k) :
    (k * i ≤ x ∧ x < k * (i + 1)) ↔ i = x / k := by
  have hdm := Nat.div_add_mod x k
  have hml := Nat.mod_lt x hk
  constructor
  · rintro ⟨hle, hlt⟩
    have ha : i ≤ x / k := (Nat.le_div_iff_mul_le hk).2 (by rw [Nat.mul_comm]; exact hle)
    have hb : x / k < i + 1 := (Nat.div_lt_iff_lt_mul hk).2 (by rw [Nat.mul_comm]; exact hlt)
    omega
  · rintro rfl
    rw [Nat.mul_succ]
    omega

theorem lookup_mem {β : Type} (l : List (Nat × β)) (a : Nat) (b : β)
    (h : l.lookup a = some b) : (a, b) ∈ l := by
  induction l with
  | nil => cases h
  | cons e t ih =>
    obtain ⟨k, v⟩ := e
    rw [List.lookup_cons] at h
    cases hbe : a == k with
    | true =>
      have hak : a = k := eq_of_beq hbe
      subst hak
      rw [hbe] at h
      simp at h
      rw [← h]
      exact List.mem_cons_self _ _
    | false =>
      rw [hbe] at h
      exact List.mem_cons_of_mem _ (ih h)

theorem plates_pos (w a b : Nat) (h : plates w = some (a, b)) : 0 < a ∧ 0 < b := by
  have hmem : (w, (a, b)) ∈ plate_shapes_list := lookup_mem _ _ _ h
  have hall : ∀ e ∈ plate_shapes_list, 0 < e.2.1 ∧ 0 < e.2.2 := by decide
  exact hall _ hmem

theorem nodup_rangeList (lo hi : Nat) : (rangeList lo hi).Nodup :=
  List.Nodup.map (fun a b hab => by omega) (List.nodup_range _)

theorem nodup_flatMap_map (f : Nat → Nat → PyStr)
    (hinj : ∀ a b x y, f a b = f x y → a = x ∧ b = y)
    (l1 l2 : List Nat) (h1 : l1.Nodup) (h2 : l2.Nodup) :
    (l1.flatMap (fun a => l2.map (f a))).Nodup := by
  induction l1 with
  | nil => simp
  | cons a t ih =>
    rw [List.flatMap_cons, List.nodup_append]
    refine ⟨List.Nodup.map (fun b b' hb => (hinj a b a b' hb).2) h2,
      ih (List.Nodup.of_cons h1), ?_⟩
    intro w hw hw'
    simp only [List.mem_map] at hw
    obtain ⟨b, hb, rfl⟩ := hw
    simp only [List.mem_flatMap, List.mem_map] at hw'
    obtain ⟨a', ha', b', hb', heq⟩ := hw'
    obtain ⟨rfl, -⟩ := hinj a' b' a b heq
    exact (List.nodup_cons.1 h1).1 ha'

theorem nodup_expansion (rr rc i j : Nat) : (expansion rr rc i j).Nodup :=
  nodup_flatMap_map (fun a b => tuple2well (a : Int) (b : Int))
    (fun a b x y h => tuple2well_inj a b x y h) _ _
    (nodup_rangeList _ _) (nodup_rangeList _ _)

/-- C5: for every supported pair of plate shapes whose row and column counts
are exact multiples, the conversion map built by `_map_plate` partitions the
target plate's well set: every target well name lies in exactly one
from-well's expansion list, and each expansion list has no duplicates. -/
theorem c5_partition (fw tw fr fc tr tc : Nat)
    (hf : plates fw = some (fr, fc)) (ht : plates tw = some (tr, tc))
    (hdr : fr ∣ tr) (hdc : fc ∣ tc) (m : List (PyStr × List PyStr))
    (hm : _map_plate fw tw = .ok m) :
    (∀ x y, x < tr → y < tc →
      m.countP (fun e => decide (tuple2well (x : Int) (y : Int) ∈ e.2)) = 1) ∧
    (∀ e ∈ m, e.2.Nodup) := by
  have hfr : 0 < fr := (plates_pos fw fr fc hf).1
  have hfc : 0 < fc := (plates_pos fw fr fc hf).2
  have hmm : m = _map_plate_entries (fr, fc) (tr, tc) := by
    rw [_map_plate, hf, ht] at hm
    injection hm with h
    exact h.symm
  subst hmm
  constructor
  · intro x y hx hy
    have hRk : fr * (tr / fr) = tr := Nat.mul_div_cancel' hdr
    have hCk : fc * (tc / fc) = tc := Nat.mul_div_cancel' hdc
    have hRpos : 0 < tr / fr := by
      rcases Nat.eq_zero_or_pos (tr / fr) with h0 | h0
      · rw [h0, Nat.mul_zero] at hRk
        omega
      · exact h0
    have hCpos : 0 < tc / fc := by
      rcases Nat.eq_zero_or_pos (tc / fc) with h0 | h0
      · rw [h0, Nat.mul_zero] at hCk
        omega
      · exact h0
    have hxd : x / (tr / fr) < fr :=
      (Nat.div_lt_iff_lt_mul hRpos).2 (by rw [hRk]; exact hx)
    have hyd : y / (tc / fc) < fc :=
      (Nat.div_lt_iff_lt_mul hCpos).2 (by rw [hCk]; exact hy)
    simp only [_map_plate_entries]
    rw [countP_flatMap, rangeList_zero, rangeList_zero]
    apply sum_map_range_one _ fr (x / (tr / fr)) hxd
    · rw [List.countP_map]
      apply countP_range_one _ fc (y / (tc / fc)) hyd
      intro j hj
      simp only [Function.comp_apply, decide_eq_true_eq]
      rw [mem_expansion_iff]
      constructor
      · rintro ⟨-, -, hc1, hc2⟩
        exact (div_interval (tc / fc) y j hCpos).1 ⟨hc1, hc2⟩
      · rintro rfl
        have hxx := (div_interval (tr / fr) x (x / (tr / fr)) hRpos).2 rfl
        have hyy := (div_interval (tc / fc) y (y / (tc / fc)) hCpos).2 rfl
        exact ⟨hxx.1, hxx.2, hyy.1, hyy.2⟩
    · intro i hi hik
      rw [List.countP_map]
      apply countP_range_zero
      intro j hj
      simp only [Function.comp_apply]
      rw [decide_eq_false_iff_not, mem_expansion_iff]
      rintro ⟨hr1, hr2, -, -⟩
      exact hik ((div_interval (tr / fr) x i hRpos).1 ⟨hr1, hr2⟩)
  · intro e he
    simp only [_map_plate_entries, List.mem_flatMap, List.mem_map] at he
    obtain ⟨i, hi, j, hj, heq⟩ := he
    rw [← heq]
    exact nodup_expansion _ _ _ _

/-- Witness for C5 at the pair (6-well, 24-well): target well B3 (coordinates
(1, 2)) lies in exactly one expansion list of the computed map. -/
theorem c5_partition_witness :
    (_map_plate_entries (2, 3) (4, 6)).countP
      (fun e => decide (tuple2well ((1 : Nat) : Int) ((2 : Nat) : Int) ∈ e.2)) = 1 :=
  (c5_partition 6 24 2 3 4 6 (by decide) (by decide) (by decide) (by decide)
    (_map_plate_entries (2, 3) (4, 6)) (by decide)).1 1 2 (by decide) (by decide)

theorem any_beq_iff {α : Type} (l : List (PyStr × α)) (k : PyStr) :
    (l.any (fun e => e.1 == k)) = true ↔ k ∈ l.map Prod.fst := by
  simp only [List.any_eq_true, List.mem_map, beq_iff_eq]

theorem frameSet_keys (f : Frame) (rk ck : PyStr) (v : PyVal)
    (h : rk ∈ f.rows.map Prod.fst) :
    (frameSet f rk ck v).rows.map Prod.fst = f.rows.map Prod.fst := by
  have hany : (f.rows.any (fun e => e.1 == rk)) = true := (any_beq_iff _ _).2 h
  simp only [frameSet, hany, if_true]
  generalize f.rows = l
  induction l with
  | nil => rfl
  | cons e t ih =>
    simp only [List.map_cons]
    by_cases he : (e.1 == rk) = true
    · rw [if_pos he]
      simp only [List.map_cons, ih]
    · rw [if_neg he]
      simp only [List.map_cons, ih]

theorem lookup_map_update_ne {α : Type} (l : List (PyStr × α)) (rk w : PyStr)
    (g : α → α) (h : w ≠ rk) :
    (l.map (fun e => if e.1 == rk then (e.1, g e.2) else e)).lookup w = l.lookup w := by
  induction l with
  | nil => rfl
  | cons e t ih =>
    simp only [List.map_cons]
    by_cases he : (e.1 == rk) = true
    · have hwe : (w == e.1) = false := by
        rw [eq_of_beq he]
        exact beq_eq_false_iff_ne.2 h
      rw [if_pos he, List.lookup_cons, List.lookup_cons, hwe]
      exact ih
    · rw [if_neg he, List.lookup_cons, List.lookup_cons]
      cases hwe : w == e.1 with
      | true => rfl
      | false => exact ih

theorem lookup_append_ne {α : Type} (l : List (PyStr × α)) (rk w : PyStr) (x : α)
    (h : w ≠ rk) : (l ++ [(rk, x)]).lookup w = l.lookup w := by
  have hwr : (w == rk) = false := beq_eq_false_iff_ne.2 h
  induction l with
  | nil =>
    simp only [List.nil_append]
    rw [List.lookup_cons, hwr]
  | cons e t ih =>
    simp only [List.cons_append]
    rw [List.lookup_cons, List.lookup_cons]
    cases hwe : w == e.1 with
    | true => rfl
    | false => exact ih

theorem frameSet_lookup_ne (f : Frame) (rk ck : PyStr) (v : PyVal) (w : PyStr)
    (h : w ≠ rk) : (frameSet f rk ck v).rows.lookup w = f.rows.lookup w := by
  simp only [frameSet]
  by_cases hany : (f.rows.any fun e => e.1 == rk) = true
  · rw [if_pos hany]
    exact lookup_map_update_ne f.rows rk w (fun r => setKey r ck v) h
  · rw [if_neg hany]
    exact lookup_append_ne _ _ _ _ h

theorem applyVars_spec (cell : PyStr) (dim : Int × Int) (a b : Nat)
    (vals : List (PyStr × Value)) :
    ∀ f f' : Frame, applyVars cell dim a b f vals = .ok f' →
      cell ∈ f.rows.map Prod.fst →
      f'.rows.map Prod.fst = f.rows.map Prod.fst ∧
      ∀ w, w ≠ cell → f'.rows.lookup w = f.rows.lookup w := by
  induction vals with
  | nil =>
    intro f f' h _
    injection h with h
    subst h
    exact ⟨rfl, fun _ _ => rfl⟩
  | cons kv rest ih =>
    intro f f' h hc
    obtain ⟨k, v⟩ := kv
    simp only [applyVars] at h
    cases hsv : spoolValue dim a b v with
    | error e => rw [hsv] at h; cases h
    | ok pv =>
      rw [hsv] at h
      have hkeys := frameSet_keys f cell k pv hc
      have hc' : cell ∈ (frameSet f cell k pv).rows.map Prod.fst := by
        rw [hkeys]; exact hc
      obtain ⟨hk, hl⟩ := ih _ _ h hc'
      exact ⟨hk.trans hkeys,
        fun w hw => (hl w hw).trans (frameSet_lookup_ne f cell k pv w hw)⟩

theorem applyRectCells_spec (dim : Int × Int) (vals : List (PyStr × Value)) :
    ∀ (ps : List ((Nat × Int) × (Nat × Int))) (f f' : Frame),
      applyRectCells dim vals f ps = .ok f' →
      (∀ p ∈ ps, tuple2well p.1.2 p.2.2 ∈ f.rows.map Prod.fst) →
      f'.rows.map Prod.fst = f.rows.map Prod.fst ∧
      ∀ w, (∀ p ∈ ps, w ≠ tuple2well p.1.2 p.2.2) →
        f'.rows.lookup w = f.rows.lookup w := by
  intro ps
  induction ps with
  | nil =>
    intro f f' h _
    injection h with h
    subst h
    exact ⟨rfl, fun _ _ => rfl⟩
  | cons p rest ih =>
    intro f f' h hin
    obtain ⟨⟨a, i⟩, ⟨b, j⟩⟩ := p
    simp only [applyRectCells] at h
    cases hv : applyVars (tuple2well i j) dim a b f vals with
    | error e => rw [hv] at h; cases h
    | ok f1 =>
      rw [hv] at h
      obtain ⟨hk1, hl1⟩ := applyVars_spec _ _ _ _ _ _ _ hv
        (hin _ (List.mem_cons_self _ _))
      have hin' : ∀ p ∈ rest, tuple2well p.1.2 p.2.2 ∈ f1.rows.map Prod.fst := by
        intro p hp
        rw [hk1]
        exact hin p (List.mem_cons_of_mem _ hp)
      obtain ⟨hk2, hl2⟩ := ih f1 f' h hin'
      refine ⟨hk2.trans hk1, fun w hw => ?_⟩
      have hw1 := hw _ (List.mem_cons_self _ _)
      rw [hl2 w (fun p hp => hw p (List.mem_cons_of_mem _ hp)), hl1 w hw1]

theorem applySingle_spec (rng : PyStr) :
    ∀ (vals : List (PyStr × Value)) (f f' : Frame),
      applySingle rng f vals = .ok f' →
      rng ∈ f.rows.map Prod.fst →
      f'.rows.map Prod.fst = f.rows.map Prod.fst ∧
      ∀ w, w ≠ rng → f'.rows.lookup w = f.rows.lookup w := by
  intro vals
  induction vals with
  | nil =>
    intro f f' h _
    injection h with h
    subst h
    exact ⟨rfl, fun _ _ => rfl⟩
  | cons kv rest ih =>
    intro f f' h hc
    obtain ⟨k, v⟩ := kv
    simp only [applySingle] at h
    cases hav : atValue v with
    | error e => rw [hav] at h; cases h
    | ok pv =>
      rw [hav] at h
      have hkeys := frameSet_keys f rng k pv hc
      have hc' : rng ∈ (frameSet f rng k pv).rows.map Prod.fst := by
        rw [hkeys]; exact hc
      obtain ⟨hk, hl⟩ := ih _ _ h hc'
      exact ⟨hk.trans hkeys,
        fun w hw => (hl w hw).trans (frameSet_lookup_ne f rng k pv w hw)⟩

theorem applySegment_spec (f f' : Frame) (wells : Nat) (dims : Nat × Nat)
    (rng : PyStr) (vals : List (PyStr × Value))
    (h : applySegment f wells rng vals = .ok f')
    (hw : segWithinPlate wells dims rng)
    (hkeys : f.rows.map Prod.fst = initCells dims) :
    f'.rows.map Prod.fst = initCells dims ∧
    ∀ w, ¬ segTouches wells rng w → f'.rows.lookup w = f.rows.lookup w := by
  simp only [applySegment] at h
  cases hr : range2tuple rng wells with
  | error e => rw [hr] at h; cases h
  | ok t =>
    cases t with
    | some tup =>
      rw [hr] at h
      have hin : ∀ p ∈ rectPairs tup, tuple2well p.1.2 p.2.2 ∈ f.rows.map Prod.fst := by
        intro p hp
        rw [hkeys]
        exact hw.1 tup hr _ (List.mem_map_of_mem _ hp)
      obtain ⟨hk, hl⟩ := applyRectCells_spec _ _ _ _ _ h hin
      refine ⟨hk.trans hkeys, fun w hwt => ?_⟩
      apply hl
      intro p hp hwp
      exact hwt (Or.inl ⟨tup, hr, hwp ▸ List.mem_map_of_mem _ hp⟩)
    | none =>
      rw [hr] at h
      cases hw2 : well2tuple rng with
      | error e => rw [hw2] at h; cases h
      | ok t2 =>
        cases t2 with
        | some p =>
          rw [hw2] at h
          have hrng : rng ∈ f.rows.map Prod.fst := by
            rw [hkeys]
            exact hw.2 hr p hw2
          obtain ⟨hk, hl⟩ := applySingle_spec _ _ _ _ h hrng
          refine ⟨hk.trans hkeys, fun w hwt => ?_⟩
          exact hl w (fun hweq => hwt (Or.inr hweq.symm))
        | none =>
          rw [hw2] at h
          injection h with h
          subst h
          exact ⟨hkeys, fun _ _ => rfl⟩

theorem applySegments_spec (wells : Nat) (dims : Nat × Nat)
    (vals : List (PyStr × Value)) :
    ∀ (segs : List PyStr) (f f' : Frame),
      applySegments wells vals f segs = .ok f' →
      (∀ seg ∈ segs, segWithinPlate wells dims seg) →
      f.rows.map Prod.fst = initCells dims →
      f'.rows.map Prod.fst = initCells dims ∧
      ∀ w, (∀ seg ∈ segs, ¬ segTouches wells seg w) →
        f'.rows.lookup w = f.rows.lookup w := by
  intro segs
  induction segs with
  | nil =>
    intro f f' h _ hkeys
    injection h with h
    subst h
    exact ⟨hkeys, fun _ _ => rfl⟩
  | cons seg rest ih =>
    intro f f' h hsw hkeys
    simp only [applySegments] at h
    cases hs : applySegment f wells seg vals with
    | error e => rw [hs] at h; cases h
    | ok f1 =>
      rw [hs] at h
      obtain ⟨hk1, hl1⟩ := applySegment_spec f f1 wells dims seg vals hs
        (hsw seg (List.mem_cons_self _ _)) hkeys
      obtain ⟨hk2, hl2⟩ := ih f1 f' h
        (fun s hsm => hsw s (List.mem_cons_of_mem _ hsm)) hk1
      refine ⟨hk2, fun w hwt => ?_⟩
      rw [hl2 w (fun s hsm => hwt s (List.mem_cons_of_mem _ hsm)),
        hl1 w (hwt seg (List.mem_cons_self _ _))]

theorem applyRules_spec (wells : Nat) (dims : Nat × Nat) :
    ∀ (prog : List (PyStr × List (PyStr × Value))) (f f' : Frame),
      applyRules wells f prog = .ok f' →
      (∀ r ∈ prog, ∀ seg ∈ splitComma r.1, segWithinPlate wells dims seg) →
      f.rows.map Prod.fst = initCells dims →
      f'.rows.map Prod.fst = initCells dims ∧
      ∀ w, ¬ touches prog wells w → f'.rows.lookup w = f.rows.lookup w := by
  intro prog
  induction prog with
  | nil =>
    intro f f' h _ hkeys
    injection h with h
    subst h
    exact ⟨hkeys, fun _ _ => rfl⟩
  | cons r rest ih =>
    intro f f' h hsw hkeys
    obtain ⟨rngs, vals⟩ := r
    simp only [applyRules] at h
    cases hs : applySegments wells vals f (splitComma rngs) with
    | error e => rw [hs] at h; cases h
    | ok f1 =>
      rw [hs] at h
      obtain ⟨hk1, hl1⟩ := applySegments_spec wells dims vals (splitComma rngs) f f1 hs
        (fun seg hseg => hsw _ (List.mem_cons_self _ _) seg hseg) hkeys
      obtain ⟨hk2, hl2⟩ := ih f1 f' h
        (fun r hr seg hseg => hsw r (List.mem_cons_of_mem _ hr) seg hseg) hk1
      refine ⟨hk2, fun w hwt => ?_⟩
      have hnt1 : ∀ seg ∈ splitComma rngs, ¬ segTouches wells seg w := by
        intro seg hseg hst
        exact hwt ⟨(rngs, vals), List.mem_cons_self _ _, seg, hseg, hst⟩
      have hnt2 : ¬ touches rest wells w := by
        rintro ⟨r, hr, seg, hseg, hst⟩
        exact hwt ⟨r, List.mem_cons_of_mem _ hr, seg, hseg, hst⟩
      rw [hl2 w hnt2, hl1 w hnt1]

theorem map_fst_pair (cells : List PyStr) :
    (cells.map (fun c => (c, ([] : Row)))).map Prod.fst = cells := by
  induction cells with
  | nil => rfl
  | cons c t ih => simp only [List.map_cons, ih]

theorem lookup_map_const (cells : List PyStr) (w : PyStr) (h : w ∈ cells) :
    (cells.map (fun c => (c, ([] : Row)))).lookup w = some [] := by
  induction cells with
  | nil => cases h
  | cons c t ih =>
    simp only [List.map_cons]
    rw [List.lookup_cons]
    cases hwc : w == c with
    | true => simp [hwc]
    | false =>
      have hwt : w ∈ t := by
        rcases List.mem_cons.1 h with rfl | hm
        · rw [beq_self_eq_true] at hwc
          cases hwc
        · exact hm
      simp [hwc, ih hwt]

/-- C6 amended: over every platemap whose segments stay within the plate —
each range-parsed segment's rectangle consists of wells of the shape, and
each single-cell segment accepted by the cell regex is exactly a well name
of the shape — a successful compilation returns a table keyed by exactly
the plate's wells, in row-major enumeration order, and every well touched by
no rule still has the empty (all-missing) row it was initialized with.
(Without the within-plate condition the claim fails: see the
counterexample, where the rule key "A1x" appends a 97th row.) -/
theorem c6_amended (prog : List (PyStr × List (PyStr × Value))) (wells : Nat)
    (dims : Nat × Nat) (df : Frame)
    (hp : plates wells = some dims)
    (hseg : ∀ r ∈ prog, ∀ seg ∈ splitComma r.1, segWithinPlate wells dims seg)
    (hok : platemap_to_dataframe prog wells = .ok df) :
    df.rows.map Prod.fst = initCells dims ∧
    ∀ w ∈ initCells dims, ¬ touches prog wells w → df.rows.lookup w = some [] := by
  rw [platemap_to_dataframe, hp] at hok
  have hinit : (initFrame dims).rows.map Prod.fst = initCells dims := by
    simp only [initFrame]
    exact map_fst_pair _
  obtain ⟨hk, hl⟩ := applyRules_spec wells dims prog _ df hok hseg hinit
  refine ⟨hk, fun w hwm hwt => ?_⟩
  rw [hl w hwt]
  exact lookup_map_const _ _ hwm

/-- C3: compiling the single rule mapping B1:C2 to conc = [[0,1],[2,3]] over
the 96-well shape succeeds and yields a table with one row per well of the
shape in row-major order, in which conc(B1)=0, conc(B2)=1, conc(C1)=2,
conc(C2)=3 (element-wise spooling in row-major order), and conc is missing
for every one of the other 92 wells. -/
theorem c3_end_to_end :
    (platemap_to_dataframe c3prog 96).toOption.isSome = true ∧
    (getOk (platemap_to_dataframe c3prog 96)).rows.map Prod.fst = initCells (8, 12) ∧
    cellVal (getOk (platemap_to_dataframe c3prog 96)) (wl "B1") (wl "conc") = some (.intV 0) ∧
    cellVal (getOk (platemap_to_dataframe c3prog 96)) (wl "B2") (wl "conc") = some (.intV 1) ∧
    cellVal (getOk (platemap_to_dataframe c3prog 96)) (wl "C1") (wl "conc") = some (.intV 2) ∧
    cellVal (getOk (platemap_to_dataframe c3prog 96)) (wl "C2") (wl "conc") = some (.intV 3) ∧
    (∀ w ∈ initCells (8, 12), w ∉ [wl "B1", wl "B2", wl "C1", wl "C2"] →
      cellVal (getOk (platemap_to_dataframe c3prog 96)) w (wl "conc") = none) := by
  decide

/-- C6 counterexample: the single-cell branch writes at the raw rule key, and
pandas label assignment appends a new row for an unknown label — so the rule
key "A1x" produces a 97-row table over the 96-well shape, with a row keyed
by the non-well string "A1x", refuting the claim that no rule can add a row
keyed by anything other than a well of the plate. -/
theorem c6_counterexample :
    Except.map (fun df => (df.rows.length, decide ((wl "A1x") ∈ df.rows.map Prod.fst)))
      (platemap_to_dataframe c6prog 96) = .ok (97, true) := by
  decide

/-- Witness for C6 amended at a concrete in-plate platemap: the compiled
table is keyed by exactly the 96 wells in row-major order. -/
theorem c6_amended_witness :
    (getOk (platemap_to_dataframe c6wprog 96)).rows.map Prod.fst = initCells (8, 12) := by
  have hseg : ∀ r ∈ c6wprog, ∀ seg ∈ splitComma r.1, segWithinPlate 96 (8, 12) seg := by
    intro r hr seg hsg
    simp only [c6wprog, List.mem_singleton] at hr
    subst hr
    rw [show splitComma (wl "A1", [(wl "v", Value.scalar (.intV 1))]).1 = [wl "A1"] from by
      decide] at hsg
    simp only [List.mem_singleton] at hsg
    subst hsg
    constructor
    · intro tup htup
      rw [show range2tuple (wl "A1") 96 = .ok none from by decide] at htup
      simp at htup
    · intro _ p _
      decide
  have hok : platemap_to_dataframe c6wprog 96 =
      .ok (getOk (platemap_to_dataframe c6wprog 96)) := by decide
  exact (c6_amended c6wprog 96 (8, 12) (getOk (platemap_to_dataframe c6wprog 96))
    (by decide) hseg hok).1

end Microplates

